import Mathlib

/-!
Verification of the calendar-grid / activity-aggregation engine of the
GitHub Activity Heatmap repository.

The TypeScript sources are shallowly embedded below:
* `GitHubAggregator.aggregateByDate`, `aggregateCombined`,
  `calculateLongestStreak`, `calculateCurrentStreak`, `calculateAverage`
  (packages/backend/src/aggregator/GitHubAggregator.ts),
* `Heatmap.mergeActivityData` (packages/frontend/src/components/Heatmap.ts),
* the week-grid construction and month-label scan of `generateHeatmapSVG`
  (src/svg.ts) and `Calendar.buildGrid` / `Calendar.buildMonthLabels`
  (src/dom/Calendar.ts),
* the intensity bucketing of `getColor` (src/svg.ts) and
  `Calendar.getIntensityColor` (src/dom/Calendar.ts),
* `parseDate` / `isValidDateRange` (src/utils.ts, both copies).

Dates are the `YYYY-MM-DD` strings the code manipulates; a `JS Map` is an
association list in insertion order; machine numbers are `Nat`/`Int`/`Rat`.
-/

/-! ### Lexicographic byte order on strings

The sources sort activity arrays with
`.sort((a, b) => a.date.localeCompare(b.date))`.  On the pure-ASCII
`YYYY-MM-DD` strings involved, `localeCompare` coincides with code-point
lexicographic order, which is how it is modelled here (over `String.data`).
-/

def chLe (a b : Char) : Bool := a.toNat ≤ b.toNat

def lexLe : List Char → List Char → Bool
  | [], _ => true
  | _ :: _, [] => false
  | a :: as, b :: bs => if a = b then lexLe as bs else chLe a b

/-- Boolean comparator used by the `.sort` calls: ascending by date string. -/
def dateLe (a b : String × ℕ) : Bool := lexLe a.1.data b.1.data

/-- The comparator as a decidable relation, for the sort. -/
def dleRel (a b : String × ℕ) : Prop := dateLe a b = true

instance : DecidableRel dleRel := by
  unfold dleRel; infer_instance

/-- Strict order on date strings: weak order together with inequality. -/
def strLt (a b : String) : Prop := lexLe a.data b.data = true ∧ a ≠ b

/-! ### JS `Map<string, number>` as an insertion-ordered association list -/

/-- An aggregated activity entry: a `YYYY-MM-DD` date string and a count
(`interface ActivityData { date: string; count: number }`). -/
abbrev ActivityData : Type := String × ℕ

/-- Model of `map.get(k)` for `Map<string, number>`. -/
def mapGet : List ActivityData → String → Option ℕ
  | [], _ => none
  | e :: m, k => if e.1 = k then some e.2 else mapGet m k

/-- Model of `map.set(k, v)`: overwrite in place, or append a new key. -/
def mapSet : List ActivityData → String → ℕ → List ActivityData
  | [], k, v => [(k, v)]
  | e :: m, k, v => if e.1 = k then (k, v) :: m else e :: mapSet m k v

/-- Model of `map.set(k, (map.get(k) || 0) + c)`, the accumulation step used
by every aggregation/merge loop in the sources. -/
def mapInc (m : List ActivityData) (k : String) (c : ℕ) : List ActivityData :=
  mapSet m k ((mapGet m k).getD 0 + c)

/-- Model of `Array.from(map.entries()).map(...).sort((a, b) =>
a.date.localeCompare(b.date))`.  JS `Array.prototype.sort` is a stable sort
under the given comparator; it is modelled by a stable insertion sort. -/
def sortByDate (l : List ActivityData) : List ActivityData :=
  List.insertionSort dleRel l

/-! ### The aggregation and merge operations -/

/-- Folding a list of `(date, count)` entries into a `Map`, adding counts.
This is the loop body shared by `aggregateCombined` (backend) and
`mergeActivityData` (frontend). -/
def foldInc (m : List ActivityData) (entries : List ActivityData) : List ActivityData :=
  entries.foldl (fun acc e => mapInc acc e.1 e.2) m

/-- Model of `Heatmap.mergeActivityData` (frontend): merge one flat array of
entries by summing counts per date, then sort by date. -/
def mergeActivityData (data : List ActivityData) : List ActivityData :=
  sortByDate (foldInc [] data)

/-- Model of `GitHubAggregator.aggregateCombined` after the per-query fetches
resolved to `allData`: merge every dataset into one map by summing counts per
date, then sort by date. -/
def aggregateCombined (allData : List (List ActivityData)) : List ActivityData :=
  sortByDate (allData.foldl (fun acc ds => foldInc acc ds) [])

/-- Model of `dateStr.split('T')[0]`: the characters before the first `T`. -/
def splitT (s : String) : String := ⟨s.data.takeWhile (fun c => c ≠ 'T')⟩

/-- One raw event as the aggregator sees it: `commit.commit?.author?.date`,
either absent (`none`) or an arbitrary string. -/
abbrev RawEvent : Type := Option String

/-- The loop body of `aggregateByDate` / the aggregation loop of
`fetchPublicCommits`: `if (!dateStr) continue;` (absent or empty string is
falsy and skipped), otherwise count the event under `dateStr.split('T')[0]`. -/
def aggStep (m : List ActivityData) (ev : RawEvent) : List ActivityData :=
  match ev with
  | none => m
  | some s => if s = "" then m else mapInc m (splitT s) 1

/-- Model of `GitHubAggregator.aggregateByDate` (and of the identical
aggregation loop in `fetchPublicCommits`, src/github.ts): group events by the
date part of their timestamp and sort the entries by date. -/
def aggregateByDate (events : List RawEvent) : List ActivityData :=
  sortByDate (events.foldl aggStep [])

/-! ### Summary statistics -/

/-- Model of `data.reduce((sum, d) => sum + d.count, 0)`. -/
def totalCommits (data : List ActivityData) : ℕ :=
  (data.map (fun e => e.2)).sum

/-- The fold state of `calculateLongestStreak`: `(longest, current)`. -/
def streakStep (p : ℕ × ℕ) (c : ℕ) : ℕ × ℕ :=
  if 0 < c then (max p.1 (p.2 + 1), p.2 + 1) else (p.1, 0)

/-- Model of `GitHubAggregator.calculateLongestStreak`: walk the entry array
in order keeping `current` (reset on a zero count) and `longest`. -/
def calculateLongestStreak (data : List ActivityData) : ℕ :=
  (data.foldl (fun p e => streakStep p e.2) (0, 0)).1

/-- Model of `GitHubAggregator.calculateCurrentStreak`: the backwards
`for`-loop with `break` counts the maximal all-positive suffix of the entry
array, i.e. the `takeWhile` of the reversed array. -/
def calculateCurrentStreak (data : List ActivityData) : ℕ :=
  (data.reverse.takeWhile (fun e => decide (0 < e.2))).length

/-- Model of `Math.round` on the non-negative values that occur here:
round half up, `⌊x + 1/2⌋`. -/
def jsRound (q : ℚ) : ℤ := ⌊q + 1 / 2⌋

/-- Model of `GitHubAggregator.calculateAverage`:
`if (data.length === 0) return 0;` then
`Math.round((total / data.length) * 10) / 10`. -/
def calculateAverage (data : List ActivityData) : ℚ :=
  if data = [] then 0
  else (jsRound ((totalCommits data : ℚ) / (data.length : ℚ) * 10) : ℚ) / 10

/-! ### Week grid construction (src/svg.ts and src/dom/Calendar.ts)

Calendar days are modelled as integers counting days from 1970-01-01 (a
Thursday), so `getUTCDay` of day `d` is `(d + 4) % 7`.
-/

/-- Model of `Date.prototype.getUTCDay` on the day number. -/
def weekday (d : ℤ) : ℤ := (d + 4) % 7

/-- One step of `while (cursor.getUTCDay() !== weekStart) cursor.setUTCDate(cursor.getUTCDate() - 1);`,
with fuel (the loop walks back at most 6 days). -/
def alignAux : ℕ → ℤ → ℤ → ℤ
  | 0, d, _ => d
  | n + 1, d, ws => if weekday d = ws then d else alignAux n (d - 1) ws

/-- Model of the week-start alignment loop: walk backward day by day until
the weekday equals `ws`. -/
def alignToWeekStart (d ws : ℤ) : ℤ := alignAux 7 d ws

/-- A list of `n` consecutive days starting at `c`. -/
def daySeq (c : ℤ) (n : ℕ) : List ℤ := (List.range n).map (fun (i : ℕ) => c + (i : ℤ))

/-- Model of the week loop of `generateHeatmapSVG` / `Calendar.buildGrid`:
`while (weekCursor <= endDate)` push a column of 7 consecutive days. -/
def buildWeeks (c e : ℤ) : List (List ℤ) :=
  if c ≤ e then daySeq c 7 :: buildWeeks (c + 7) e
  else []
termination_by (e + 1 - c).toNat
decreasing_by
  omega

/-- The full grid for a range: align the start to the week start, then build
week columns until the cursor passes the end. -/
def buildGrid (s e ws : ℤ) : List (List ℤ) :=
  buildWeeks (alignToWeekStart s ws) e

/-- The in-range cells of the grid, in grid order
(`inRange = day >= startDate && day <= endDate`). -/
def inRangeCells (g : List (List ℤ)) (s e : ℤ) : List ℤ :=
  g.flatten.filter (fun d => decide (s ≤ d) && decide (d ≤ e))

/-! ### Month-label placement (src/svg.ts lines 159-178, Calendar.buildMonthLabels)

The scan receives, per week column, the calendar month (`0..11`) of the
column's first day; `lastMonth` starts at `-1` (modelled `none`) and
`lastLabelX` at `-Infinity` (modelled `none`).
-/

/-- The left-to-right label scan of `generateHeatmapSVG`:
`if (m !== lastMonth) { if (x - lastLabelX >= minLabelSpacing) { emit; lastLabelX = x; lastMonth = m; } }`.
On a failed spacing check neither `lastMonth` nor `lastLabelX` changes. -/
def monthScanAux (offX weekW minSp : ℤ) :
    List ℕ → ℕ → Option ℕ → Option ℤ → List (ℕ × ℕ)
  | [], _, _, _ => []
  | m :: ms, w, lastM, lastX =>
    if some m ≠ lastM then
      if (match lastX with
          | none => true
          | some lx => decide (offX + w * weekW - lx ≥ minSp)) then
        (w, m) :: monthScanAux offX weekW minSp ms (w + 1) (some m) (some (offX + w * weekW))
      else monthScanAux offX weekW minSp ms (w + 1) lastM lastX
    else monthScanAux offX weekW minSp ms (w + 1) lastM lastX

/-- The month labels emitted for week columns whose first days fall in the
months `ms`. -/
def monthScan (offX weekW minSp : ℤ) (ms : List ℕ) : List (ℕ × ℕ) :=
  monthScanAux offX weekW minSp ms 0 none none

/-- Modelled from the claim's words: the same scan, but a month transition
whose spacing check fails is "skipped for that transition" — it is consumed
(the month becomes the reference month) and receives no label at all, while
the previously emitted label keeps being the spacing reference point. -/
def monthScanClaimAux (offX weekW minSp : ℤ) :
    List ℕ → ℕ → Option ℕ → Option ℤ → List (ℕ × ℕ)
  | [], _, _, _ => []
  | m :: ms, w, lastM, lastX =>
    if some m ≠ lastM then
      if (match lastX with
          | none => true
          | some lx => decide (offX + w * weekW - lx ≥ minSp)) then
        (w, m) :: monthScanClaimAux offX weekW minSp ms (w + 1) (some m) (some (offX + w * weekW))
      else monthScanClaimAux offX weekW minSp ms (w + 1) (some m) lastX
    else monthScanClaimAux offX weekW minSp ms (w + 1) lastM lastX

/-- The claim's reading of the scan, from the start state. -/
def monthScanClaim (offX weekW minSp : ℤ) (ms : List ℕ) : List (ℕ × ℕ) :=
  monthScanClaimAux offX weekW minSp ms 0 none none

/-- Reformulation of the code's scan with the state collapsed to the last
emitted label `(month, x)`: emit at a column exactly when its month differs
from the last emitted label's month and the distance from that label's x
position is at least `minSp`. -/
def monthScanGreedy (offX weekW minSp : ℤ) :
    List ℕ → ℕ → Option (ℕ × ℤ) → List (ℕ × ℕ)
  | [], _, _ => []
  | m :: ms, w, last =>
    if (match last with
        | none => true
        | some (lm, lx) => decide (m ≠ lm) && decide (offX + w * weekW - lx ≥ minSp)) then
      (w, m) :: monthScanGreedy offX weekW minSp ms (w + 1) (some (m, offX + w * weekW))
    else monthScanGreedy offX weekW minSp ms (w + 1) last

/-! ### Intensity bucketing (src/svg.ts getColor, Calendar.getIntensityColor) -/

/-- Model of `Math.max(...data.map(d => d.count), 1)`, the series maximum
used for relative intensity scaling. -/
def seriesMaxCount (data : List ActivityData) : ℕ :=
  (data.map (fun e => e.2)).foldl max 1

/-- Model of `getColor` / `getIntensityColor` with colors replaced by their
level index `0..4`: `count === 0` is empty, otherwise bucket the ratio
`count / maxCount` at `0.25`, `0.5`, `0.75`. -/
def getColorLevel (maxCount count : ℕ) : ℕ :=
  if count = 0 then 0
  else
    if (count : ℚ) / (maxCount : ℚ) ≤ 1 / 4 then 1
    else if (count : ℚ) / (maxCount : ℚ) ≤ 1 / 2 then 2
    else if (count : ℚ) / (maxCount : ℚ) ≤ 3 / 4 then 3
    else 4

/-- The claim's two-argument bucket function
`bucket(count, maxCountInSeries)` with the `max(maxCountInSeries, 1)`
clamp: in the sources the clamp lives in the computation of the series
maximum, which is what `getColorLevel` receives. -/
def bucket (count maxC : ℕ) : ℕ := getColorLevel (max maxC 1) count

/-! ### Date parsing (src/utils.ts `parseDate`, both copies)

`parseDate(s)` evaluates `new Date(s + "T00:00:00Z")` and throws
`Error("Invalid date: ...")` when the result is `Invalid Date`.  With the
fixed valid time suffix appended, the built-in parser accepts exactly the
ECMAScript date-only forms `YYYY`, `YYYY-MM` and `YYYY-MM-DD` whose
components denote a real calendar day (absent month/day default to
January/1); out-of-range components make the string non-conforming and are
rejected, as are all other shapes (V8/Node rejects non-conforming strings of
this form; expanded six-digit-year forms are not modelled). -/

/-- Decimal digit test on a character. -/
def isDig (c : Char) : Bool := decide ('0' ≤ c) && decide (c ≤ '9')

/-- Numeric value of a digit character. -/
def digVal (c : Char) : ℕ := c.toNat - '0'.toNat

/-- Leap year rule of the proleptic Gregorian calendar (as implemented by
JavaScript `Date`). -/
def isLeap (y : ℕ) : Bool :=
  (y % 4 = 0 && y % 100 ≠ 0) || y % 400 = 0

/-- Number of days of month `m` (1..12) in year `y`. -/
def daysInMonth (y m : ℕ) : ℕ :=
  if m = 2 then (if isLeap y then 29 else 28)
  else if m = 4 ∨ m = 6 ∨ m = 9 ∨ m = 11 then 30
  else 31

/-- Four-digit year value. -/
def toY (a b c d : Char) : ℕ :=
  digVal a * 1000 + digVal b * 100 + digVal c * 10 + digVal d

/-- Two-digit field value. -/
def toTwo (a b : Char) : ℕ := digVal a * 10 + digVal b

/-- Model of `new Date(s + "T00:00:00Z")` on the date-only part `s`,
returning the `(year, month, day)` it denotes, or `none` for
`Invalid Date`. -/
def jsDateParse (l : List Char) : Option (ℕ × ℕ × ℕ) :=
  match l with
  | [y1, y2, y3, y4] =>
    if isDig y1 && isDig y2 && isDig y3 && isDig y4 then
      some (toY y1 y2 y3 y4, 1, 1)
    else none
  | [y1, y2, y3, y4, '-', m1, m2] =>
    if isDig y1 && isDig y2 && isDig y3 && isDig y4 && isDig m1 && isDig m2 &&
        decide (1 ≤ toTwo m1 m2) && decide (toTwo m1 m2 ≤ 12) then
      some (toY y1 y2 y3 y4, toTwo m1 m2, 1)
    else none
  | [y1, y2, y3, y4, '-', m1, m2, '-', d1, d2] =>
    if isDig y1 && isDig y2 && isDig y3 && isDig y4 && isDig m1 && isDig m2 &&
        isDig d1 && isDig d2 &&
        decide (1 ≤ toTwo m1 m2) && decide (toTwo m1 m2 ≤ 12) &&
        decide (1 ≤ toTwo d1 d2) &&
        decide (toTwo d1 d2 ≤ daysInMonth (toY y1 y2 y3 y4) (toTwo m1 m2)) then
      some (toY y1 y2 y3 y4, toTwo m1 m2, toTwo d1 d2)
    else none
  | _ => none

/-- Model of `parseDate` (src/utils.ts): `none` models the thrown
`Error("Invalid date: ...")`. -/
def parseDate (s : String) : Option (ℕ × ℕ × ℕ) := jsDateParse s.data

/-- Order on parsed dates, mirroring the `Date` time-value comparison
`startDate <= endDate`. -/
def ymdLe (a b : ℕ × ℕ × ℕ) : Bool :=
  decide (a.1 < b.1) ||
    (decide (a.1 = b.1) &&
      (decide (a.2.1 < b.2.1) || (decide (a.2.1 = b.2.1) && decide (a.2.2 ≤ b.2.2))))

/-- Model of `isValidDateRange` (src/utils.ts): calls `parseDate` on both
ends with no exception handling, so a parse failure propagates (`none`). -/
def isValidDateRange (s e : String) : Option Bool :=
  match parseDate s with
  | none => none
  | some a =>
    match parseDate e with
    | none => none
    | some b => some (ymdLe a b)

/-- Modelled from the claim's words: strict `YYYY-MM-DD` shape denoting a
real calendar day — the only strings the claim says parsing accepts. -/
def strictYMDList (l : List Char) : Bool :=
  match l with
  | [y1, y2, y3, y4, '-', m1, m2, '-', d1, d2] =>
    isDig y1 && isDig y2 && isDig y3 && isDig y4 && isDig m1 && isDig m2 &&
      isDig d1 && isDig d2 &&
      decide (1 ≤ toTwo m1 m2) && decide (toTwo m1 m2 ≤ 12) &&
      decide (1 ≤ toTwo d1 d2) &&
      decide (toTwo d1 d2 ≤ daysInMonth (toY y1 y2 y3 y4) (toTwo m1 m2))
  | _ => false

/-- The strict shape test on a string. -/
def strictYMD (s : String) : Bool := strictYMDList s.data

/-- Day number of a calendar date (days since 0000-03-01 of the proleptic
Gregorian calendar); used to relate `YYYY-MM-DD` strings to the integer
day axis on which consecutive calendar dates are consecutive integers. -/
def civilDays (y m d : ℕ) : ℕ :=
  let y' := if m ≤ 2 then y - 1 else y
  let era := y' / 400
  let yoe := y' % 400
  let mp := if 2 < m then m - 3 else m + 9
  let doy := (153 * mp + 2) / 5 + d - 1
  let doe := yoe * 365 + yoe / 4 - yoe / 100 + doy
  era * 146097 + doe

/-! ### Specification-side notions for streaks and averages

The claims describe streaks over *consecutive calendar dates in the range*.
These notions are stated over the per-day count sequence of a range: a run
is a contiguous block of days, and the range is the integer interval of day
numbers `s..e`.
-/

/-- The `L` days starting at index `i` of the count sequence `l` all have a
positive count. -/
def posRunAt (l : List ℕ) (i L : ℕ) : Prop :=
  i + L ≤ l.length ∧ ∀ j < L, 0 < l.getD (i + j) 0

/-- Some contiguous block of `L` days of `l` has all-positive counts. -/
def hasPosRun (l : List ℕ) (L : ℕ) : Prop :=
  ∃ i < l.length + 1, posRunAt l i L

instance (l : List ℕ) (i L : ℕ) : Decidable (posRunAt l i L) := by
  unfold posRunAt; infer_instance

instance (l : List ℕ) (L : ℕ) : Decidable (hasPosRun l L) := by
  unfold hasPosRun; infer_instance

/-- The length of the longest contiguous all-positive block of `l`. -/
def longestPosRun (l : List ℕ) : ℕ :=
  Nat.findGreatest (hasPosRun l) l.length

/-- The last `L` entries of `l` all have a positive count. -/
def trailingSpec (l : List ℕ) (L : ℕ) : Prop :=
  L ≤ l.length ∧ ∀ j < L, 0 < l.getD (l.length - L + j) 0

instance (l : List ℕ) (L : ℕ) : Decidable (trailingSpec l L) := by
  unfold trailingSpec; infer_instance

/-- The length of the maximal all-positive suffix of `l`. -/
def trailingPosLen (l : List ℕ) : ℕ :=
  Nat.findGreatest (trailingSpec l) l.length

/-- The per-day counts of the inclusive day-number range `s..e` under the
count function `c` (a date absent from the series has count `0`). -/
def rangeCounts (c : ℕ → ℕ) (s e : ℕ) : List ℕ :=
  (List.range (e + 1 - s)).map (fun i => c (s + i))

/-- The claim's `longestStreak`: the longest run of consecutive calendar
dates within `s..e` each having a positive count. -/
def specLongestStreakDays (c : ℕ → ℕ) (s e : ℕ) : ℕ :=
  longestPosRun (rangeCounts c s e)

/-- The claim's `currentStreak`: the trailing run of consecutive calendar
dates ending exactly at `e` each having a positive count. -/
def specCurrentStreakDays (c : ℕ → ℕ) (s e : ℕ) : ℕ :=
  trailingPosLen (rangeCounts c s e)

/-- The claim's `averageCommitsPerDay`: total commits over the range divided
by the number of calendar dates of the range, rounded to 1 decimal, and `0`
instead of a division by zero when the range has no dates. -/
def specAverageDays (c : ℕ → ℕ) (s e : ℕ) : ℚ :=
  if e + 1 - s = 0 then 0
  else (jsRound (((rangeCounts c s e).sum : ℚ) / ((e + 1 - s : ℕ) : ℚ) * 10) : ℚ) / 10

/-! ### Properties of the lexicographic comparator -/

/-- The streak fold of `calculateLongestStreak` on a bare count sequence. -/
def streakFold (l : List ℕ) : ℕ × ℕ := l.foldl streakStep (0, 0)

/-- The maximal all-positive suffix length of a count sequence, computed as
the backwards loop of `calculateCurrentStreak` computes it. -/
def trailingPos (l : List ℕ) : ℕ :=
  (l.reverse.takeWhile (fun c => decide (0 < c))).length

theorem chToNat_inj {a b : Char} (h : a.toNat = b.toNat) : a = b := by
  have := congrArg Char.ofNat h
  rwa [Char.ofNat_toNat, Char.ofNat_toNat] at this

theorem lexLe_total : ∀ a b : List Char, lexLe a b = true ∨ lexLe b a = true := by
  intro a
  induction a with
  | nil => intro b; left; simp [lexLe]
  | cons x xs ih =>
    intro b
    cases b with
    | nil => right; simp [lexLe]
    | cons y ys =>
      by_cases hxy : x = y
      · subst hxy
        rcases ih ys with h | h
        · left; simpa [lexLe] using h
        · right; simpa [lexLe] using h
      · have hyx : y ≠ x := fun h => hxy h.symm
        rcases Nat.le_total x.toNat y.toNat with h | h
        · left; simp [lexLe, hxy, chLe, h]
        · right; simp [lexLe, hyx, chLe, h]

theorem lexLe_trans :
    ∀ a b c : List Char, lexLe a b = true → lexLe b c = true → lexLe a c = true := by
  intro a
  induction a with
  | nil => intro b c _ _; simp [lexLe]
  | cons x xs ih =>
    intro b c hab hbc
    cases b with
    | nil => simp [lexLe] at hab
    | cons y ys =>
      cases c with
      | nil => simp [lexLe] at hbc
      | cons z zs =>
        by_cases hxy : x = y
        · subst hxy
          by_cases hyz : x = z
          · subst hyz
            simp only [lexLe, if_pos rfl] at hab hbc ⊢
            exact ih ys zs hab hbc
          · simp only [lexLe, if_pos rfl] at hab
            simpa [lexLe, hyz] using hbc
        · by_cases hyz : y = z
          · subst hyz
            simpa [lexLe, hxy] using hab
          · simp only [lexLe, if_neg hxy] at hab
            simp only [lexLe, if_neg hyz] at hbc
            have hle : x.toNat ≤ z.toNat :=
              Nat.le_trans (by simpa [chLe] using hab) (by simpa [chLe] using hbc)
            by_cases hxz : x = z
            · subst hxz
              have h1 : x.toNat ≤ y.toNat := by simpa [chLe] using hab
              have h2 : y.toNat ≤ x.toNat := by simpa [chLe] using hbc
              exact absurd (chToNat_inj (Nat.le_antisymm h1 h2)) hxy
            · simp [lexLe, hxz, chLe, hle]

instance : IsTotal ActivityData dleRel :=
  ⟨fun a b => lexLe_total a.1.data b.1.data⟩

instance : IsTrans ActivityData dleRel :=
  ⟨fun a b c hab hbc => lexLe_trans a.1.data b.1.data c.1.data hab hbc⟩

/-! ### Properties of the map model -/

/-- Membership of a date among a list's date keys. -/
def keyMem (l : List ActivityData) (k : String) : Prop :=
  k ∈ l.map Prod.fst

instance (l : List ActivityData) (k : String) : Decidable (keyMem l k) := by
  unfold keyMem; infer_instance

/-- The summed count of all entries of `l` carrying the date `k`. -/
def keyTotal (l : List ActivityData) (k : String) : ℕ :=
  ((l.filter (fun e => e.1 = k)).map (fun e => e.2)).sum

/-- The dates of an activity array are pairwise distinct. -/
def nodupDates (l : List ActivityData) : Prop :=
  (l.map Prod.fst).Nodup

theorem mapGet_mapSet_self (m : List ActivityData) (k : String) (v : ℕ) :
    mapGet (mapSet m k v) k = some v := by
  induction m with
  | nil => simp [mapSet, mapGet]
  | cons e m ih =>
    by_cases h : e.1 = k
    · simp [mapSet, h, mapGet]
    · simp [mapSet, h, mapGet, ih]

theorem mapGet_mapSet_ne (m : List ActivityData) {k k' : String} (v : ℕ)
    (h : k' ≠ k) : mapGet (mapSet m k v) k' = mapGet m k' := by
  have hk : k ≠ k' := fun hh => h hh.symm
  induction m with
  | nil => simp [mapSet, mapGet, hk]
  | cons e m ih =>
    by_cases he : e.1 = k
    · have he' : e.1 ≠ k' := by rw [he]; exact hk
      simp [mapSet, he, mapGet, hk, he']
    · by_cases he' : e.1 = k'
      · simp [mapSet, he, mapGet, he', h]
      · simp [mapSet, he, mapGet, he', ih]

theorem keyMem_mapSet (m : List ActivityData) (k x : String) (v : ℕ) :
    keyMem (mapSet m k v) x ↔ keyMem m x ∨ x = k := by
  induction m with
  | nil => simp [mapSet, keyMem, eq_comm]
  | cons e m ih =>
    by_cases h : e.1 = k
    · subst h
      have hm : mapSet (e :: m) e.1 v = (e.1, v) :: m := by simp [mapSet]
      rw [hm]
      simp only [keyMem, List.map_cons, List.mem_cons]
      tauto
    · simp only [mapSet, if_neg h, keyMem, List.map_cons, List.mem_cons] at *
      rw [ih]
      tauto

theorem nodupDates_mapSet (m : List ActivityData) (k : String) (v : ℕ)
    (h : nodupDates m) : nodupDates (mapSet m k v) := by
  induction m with
  | nil => simp [mapSet, nodupDates]
  | cons e m ih =>
    simp only [nodupDates, List.map_cons, List.nodup_cons] at h
    by_cases he : e.1 = k
    · subst he
      have hm : mapSet (e :: m) e.1 v = (e.1, v) :: m := by simp [mapSet]
      rw [hm]
      simpa only [nodupDates, List.map_cons, List.nodup_cons] using h
    · have hrec := ih h.2
      simp only [mapSet, if_neg he, nodupDates, List.map_cons, List.nodup_cons]
      refine ⟨?_, hrec⟩
      intro hmem
      have : keyMem (mapSet m k v) e.1 := hmem
      rcases (keyMem_mapSet m k e.1 v).mp this with h1 | h1
      · exact h.1 h1
      · exact he h1

theorem mem_mapSet (m : List ActivityData) (k : String) (v : ℕ) :
    ∀ x ∈ mapSet m k v, x ∈ m ∨ x = (k, v) := by
  induction m with
  | nil => simp [mapSet]
  | cons e m ih =>
    by_cases h : e.1 = k
    · intro x hx
      rcases (by simpa [mapSet, h] using hx : x = (k, v) ∨ x ∈ m) with h1 | h1
      · right; exact h1
      · left; exact List.mem_cons_of_mem _ h1
    · intro x hx
      rcases (by simpa [mapSet, h] using hx : x = e ∨ x ∈ mapSet m k v) with h1 | h1
      · left; simp [h1]
      · rcases ih x h1 with h2 | h2
        · left; exact List.mem_cons_of_mem _ h2
        · right; exact h2

theorem keyTotal_nil (k : String) : keyTotal [] k = 0 := rfl

theorem keyTotal_cons (e : ActivityData) (l : List ActivityData) (k : String) :
    keyTotal (e :: l) k = (if e.1 = k then e.2 else 0) + keyTotal l k := by
  by_cases h : e.1 = k <;> simp [keyTotal, h]

theorem keyTotal_append (a b : List ActivityData) (k : String) :
    keyTotal (a ++ b) k = keyTotal a k + keyTotal b k := by
  simp [keyTotal, List.filter_append]

theorem keyMem_append (a b : List ActivityData) (k : String) :
    keyMem (a ++ b) k ↔ keyMem a k ∨ keyMem b k := by
  simp [keyMem]

theorem keyMem_cons (e : ActivityData) (l : List ActivityData) (k : String) :
    keyMem (e :: l) k ↔ e.1 = k ∨ keyMem l k := by
  simp [keyMem, eq_comm]

/-- The accumulation loop leaves keys it never sees untouched. -/
theorem mapGet_foldInc_not_mem (entries : List ActivityData) :
    ∀ (m : List ActivityData) (k : String), ¬ keyMem entries k →
      mapGet (foldInc m entries) k = mapGet m k := by
  induction entries with
  | nil => intro m k _; rfl
  | cons e es ih =>
    intro m k hk
    rw [keyMem_cons] at hk
    push_neg at hk
    have : foldInc m (e :: es) = foldInc (mapInc m e.1 e.2) es := rfl
    rw [this, ih _ k hk.2, mapInc, mapGet_mapSet_ne _ _ (fun hh => hk.1 hh.symm)]

/-- The accumulation loop adds, per key, the total count of the entries seen. -/
theorem mapGet_foldInc_mem (entries : List ActivityData) :
    ∀ (m : List ActivityData) (k : String),
      keyMem entries k ∨ (mapGet m k).isSome = true →
      mapGet (foldInc m entries) k = some ((mapGet m k).getD 0 + keyTotal entries k) := by
  induction entries with
  | nil =>
    intro m k h
    rcases h with h | h
    · simp [keyMem] at h
    · rcases Option.isSome_iff_exists.mp h with ⟨v, hv⟩
      simp [foldInc, keyTotal, hv]
  | cons e es ih =>
    intro m k h
    have hstep : foldInc m (e :: es) = foldInc (mapInc m e.1 e.2) es := rfl
    by_cases hke : e.1 = k
    · subst hke
      have hsome : (mapGet (mapInc m e.1 e.2) e.1).isSome = true := by
        simp [mapInc, mapGet_mapSet_self]
      rw [hstep, ih _ _ (Or.inr hsome)]
      simp [mapInc, mapGet_mapSet_self, keyTotal_cons]
      omega
    · have hget : mapGet (mapInc m e.1 e.2) k = mapGet m k := by
        rw [mapInc, mapGet_mapSet_ne _ _ (fun hh => hke hh.symm)]
      have h' : keyMem es k ∨ (mapGet m k).isSome = true := by
        rcases h with h | h
        · rcases (keyMem_cons e es k).mp h with h1 | h1
          · exact absurd h1 hke
          · exact Or.inl h1
        · exact Or.inr h
      rw [hstep, ih _ _ (by rw [hget]; exact h'), hget, keyTotal_cons, if_neg hke]
      simp

/-- The accumulation loop preserves distinctness of dates. -/
theorem nodupDates_foldInc (entries : List ActivityData) :
    ∀ m : List ActivityData, nodupDates m → nodupDates (foldInc m entries) := by
  induction entries with
  | nil => intro m h; exact h
  | cons e es ih =>
    intro m h
    exact ih _ (nodupDates_mapSet _ _ _ h)

/-- The accumulation loop preserves positivity of counts when every added
count is positive. -/
theorem foldInc_pos (entries : List ActivityData) :
    ∀ m : List ActivityData, (∀ x ∈ m, 1 ≤ x.2) → (∀ x ∈ entries, 1 ≤ x.2) →
      ∀ x ∈ foldInc m entries, 1 ≤ x.2 := by
  induction entries with
  | nil => intro m hm _; exact hm
  | cons e es ih =>
    intro m hm hent
    have he : 1 ≤ e.2 := hent e (List.mem_cons_self e es)
    have hm' : ∀ x ∈ mapInc m e.1 e.2, 1 ≤ x.2 := by
      intro x hx
      rcases mem_mapSet _ _ _ x hx with h1 | h1
      · exact hm x h1
      · subst h1; simp; omega
    exact ih _ hm' (fun x hx => hent x (List.mem_cons_of_mem _ hx))

/-- Keys present after the loop are keys of the accumulator or of the
entries. -/
theorem keyMem_foldInc (entries : List ActivityData) :
    ∀ (m : List ActivityData) (k : String),
      keyMem (foldInc m entries) k ↔ keyMem m k ∨ keyMem entries k := by
  induction entries with
  | nil => intro m k; simp [foldInc, keyMem]
  | cons e es ih =>
    intro m k
    have hstep : foldInc m (e :: es) = foldInc (mapInc m e.1 e.2) es := rfl
    rw [hstep, ih, keyMem_cons, mapInc, keyMem_mapSet]
    tauto

/-- Keys and values after sorting: the sort is a permutation, so lookups on
a duplicate-free map are unchanged. -/
theorem sortByDate_perm (l : List ActivityData) : List.Perm (sortByDate l) l :=
  List.perm_insertionSort dleRel l

theorem keyMem_sortByDate (l : List ActivityData) (k : String) :
    keyMem (sortByDate l) k ↔ keyMem l k := by
  unfold keyMem
  exact ((sortByDate_perm l).map Prod.fst).mem_iff

theorem nodupDates_sortByDate (l : List ActivityData) (h : nodupDates l) :
    nodupDates (sortByDate l) :=
  ((sortByDate_perm l).map Prod.fst).nodup_iff.mpr h

theorem keyTotal_sortByDate (l : List ActivityData) (k : String) :
    keyTotal (sortByDate l) k = keyTotal l k := by
  unfold keyTotal
  exact List.Perm.sum_eq (List.Perm.map _ (List.Perm.filter _ (sortByDate_perm l)))

theorem keyMem_iff_isSome (l : List ActivityData) (k : String) :
    keyMem l k ↔ (mapGet l k).isSome = true := by
  induction l with
  | nil => simp [keyMem, mapGet]
  | cons e m ih =>
    by_cases h : e.1 = k
    · simp [keyMem_cons, h, mapGet]
    · simp [keyMem_cons, h, mapGet, ih]

theorem mem_of_mapGet_eq_some {l : List ActivityData} {k : String} {v : ℕ}
    (h : mapGet l k = some v) : (k, v) ∈ l := by
  induction l with
  | nil => simp [mapGet] at h
  | cons e m ih =>
    by_cases he : e.1 = k
    · rw [mapGet, if_pos he] at h
      have hv : v = e.2 := by
        injection h with h1
        exact h1.symm
      have hkv : (k, v) = e := by
        obtain ⟨e1, e2⟩ := e
        simp only at he hv
        rw [← he, hv]
      rw [hkv]
      exact List.mem_cons_self e m
    · rw [mapGet, if_neg he] at h
      exact List.mem_cons_of_mem _ (ih h)

theorem mapGet_eq_some_of_mem {l : List ActivityData} {k : String} {v : ℕ}
    (hnd : nodupDates l) (h : (k, v) ∈ l) : mapGet l k = some v := by
  induction l with
  | nil => simp at h
  | cons e m ih =>
    simp only [nodupDates, List.map_cons, List.nodup_cons] at hnd
    rcases List.mem_cons.mp h with h1 | h1
    · rw [← h1, mapGet, if_pos rfl]
    · have hk : k ∈ m.map Prod.fst := List.mem_map.mpr ⟨(k, v), h1, rfl⟩
      have he : e.1 ≠ k := fun hh => hnd.1 (hh ▸ hk)
      rw [mapGet, if_neg he]
      exact ih hnd.2 h1

theorem mapGet_of_perm {l l' : List ActivityData} (hp : List.Perm l l')
    (hnd : nodupDates l) (k : String) : mapGet l k = mapGet l' k := by
  cases h : mapGet l k with
  | none =>
    have : ¬ keyMem l k := by
      rw [keyMem_iff_isSome, h]; simp
    have hnm : ¬ keyMem l' k := fun hh =>
      this ((List.Perm.mem_iff (hp.map Prod.fst)).mpr hh)
    rw [keyMem_iff_isSome] at hnm
    cases h' : mapGet l' k with
    | none => rfl
    | some v => rw [h'] at hnm; simp at hnm
  | some v =>
    have hmem : (k, v) ∈ l' := (hp.mem_iff).mp (mem_of_mapGet_eq_some h)
    have hnd' : nodupDates l' := ((hp.map Prod.fst).nodup_iff).mp hnd
    exact (mapGet_eq_some_of_mem hnd' hmem).symm

theorem mapGet_sortByDate (l : List ActivityData) (hnd : nodupDates l)
    (k : String) : mapGet (sortByDate l) k = mapGet l k :=
  (mapGet_of_perm (sortByDate_perm l).symm hnd k).symm

theorem keyTotal_zero_of_not_mem {l : List ActivityData} {k : String}
    (h : ¬ keyMem l k) : keyTotal l k = 0 := by
  induction l with
  | nil => rfl
  | cons e m ih =>
    rw [keyMem_cons] at h
    push_neg at h
    rw [keyTotal_cons, if_neg h.1, ih h.2]

theorem keyTotal_of_nodup {l : List ActivityData} (hnd : nodupDates l)
    (k : String) : keyTotal l k = (mapGet l k).getD 0 := by
  induction l with
  | nil => rfl
  | cons e m ih =>
    simp only [nodupDates, List.map_cons, List.nodup_cons] at hnd
    by_cases he : e.1 = k
    · have : ¬ keyMem m k := fun hh => hnd.1 (he ▸ hh)
      rw [keyTotal_cons, if_pos he, keyTotal_zero_of_not_mem this, mapGet, if_pos he]
      simp
    · rw [keyTotal_cons, if_neg he, mapGet, if_neg he, ih hnd.2]
      simp

/-- Lookup characterization of the merge fold from the empty map: the merged
count of a date is the sum of that date's counts across the input entries. -/
theorem mapGet_mergeFold (entries : List ActivityData) (k : String) :
    mapGet (foldInc [] entries) k =
      if keyMem entries k then some (keyTotal entries k) else none := by
  by_cases h : keyMem entries k
  · rw [if_pos h, mapGet_foldInc_mem entries [] k (Or.inl h)]
    simp [mapGet]
  · rw [if_neg h, mapGet_foldInc_not_mem entries [] k h]
    rfl

theorem nodupDates_mergeFold (entries : List ActivityData) :
    nodupDates (foldInc [] entries) :=
  nodupDates_foldInc entries [] (by simp [nodupDates])

/-- Lookup characterization of `mergeActivityData`. -/
theorem mapGet_mergeActivityData (data : List ActivityData) (k : String) :
    mapGet (mergeActivityData data) k =
      if keyMem data k then some (keyTotal data k) else none := by
  rw [mergeActivityData, mapGet_sortByDate _ (nodupDates_mergeFold data),
    mapGet_mergeFold]

/-- The dataset loop of `aggregateCombined` is the merge fold of the
concatenation of its datasets. -/
theorem foldl_foldInc (ls : List (List ActivityData)) :
    ∀ m : List ActivityData,
      ls.foldl (fun acc ds => foldInc acc ds) m = foldInc m ls.flatten := by
  induction ls with
  | nil => intro m; rfl
  | cons a rest ih =>
    intro m
    rw [List.foldl_cons, ih, List.flatten_cons]
    unfold foldInc
    rw [List.foldl_append]

/-- Lookup characterization of `aggregateCombined`: the merged count of a
date is the sum of that date's counts across all datasets. -/
theorem mapGet_aggregateCombined (ls : List (List ActivityData)) (k : String) :
    mapGet (aggregateCombined ls) k =
      if keyMem ls.flatten k then some (keyTotal ls.flatten k) else none := by
  rw [aggregateCombined, foldl_foldInc,
    mapGet_sortByDate _ (nodupDates_mergeFold ls.flatten), mapGet_mergeFold]

theorem nodupDates_aggregateCombined (ls : List (List ActivityData)) :
    nodupDates (aggregateCombined ls) := by
  rw [aggregateCombined, foldl_foldInc]
  exact nodupDates_sortByDate _ (nodupDates_mergeFold ls.flatten)

/-- Two-dataset characterization: the merged count is the sum of the two
per-dataset totals (an absent date carries total 0). -/
theorem mapGet_agg2 (x y : List ActivityData) (k : String) :
    mapGet (aggregateCombined [x, y]) k =
      if keyMem x k ∨ keyMem y k then some (keyTotal x k + keyTotal y k) else none := by
  rw [mapGet_aggregateCombined]
  simp [keyMem_append, keyTotal_append]

theorem keyMem_agg2 (x y : List ActivityData) (k : String) :
    keyMem (aggregateCombined [x, y]) k ↔ keyMem x k ∨ keyMem y k := by
  rw [keyMem_iff_isSome, mapGet_agg2]
  by_cases h : keyMem x k ∨ keyMem y k <;> simp [h]

theorem keyTotal_agg2 (x y : List ActivityData) (k : String) :
    keyTotal (aggregateCombined [x, y]) k = keyTotal x k + keyTotal y k := by
  rw [keyTotal_of_nodup (nodupDates_aggregateCombined [x, y]), mapGet_agg2]
  by_cases h : keyMem x k ∨ keyMem y k
  · rw [if_pos h]; rfl
  · push_neg at h
    rw [if_neg (by tauto), keyTotal_zero_of_not_mem h.1, keyTotal_zero_of_not_mem h.2]
    rfl

/-- C6: merging is a summing merge — each date present in any input maps to
the sum of that date's counts across the inputs — and, as a date-to-count
mapping, merging is commutative and associative; the merge of zero series is
the empty series. -/
theorem claim_C6_merge_summing_comm_assoc :
    (∀ (ls : List (List ActivityData)) (k : String),
      mapGet (aggregateCombined ls) k =
        if keyMem ls.flatten k then some (keyTotal ls.flatten k) else none) ∧
    (∀ (a b : List ActivityData) (k : String),
      mapGet (aggregateCombined [a, b]) k = mapGet (aggregateCombined [b, a]) k) ∧
    (∀ (a b c : List ActivityData) (k : String),
      mapGet (aggregateCombined [aggregateCombined [a, b], c]) k =
        mapGet (aggregateCombined [a, aggregateCombined [b, c]]) k) ∧
    aggregateCombined [] = [] := by
  refine ⟨mapGet_aggregateCombined, ?_, ?_, rfl⟩
  · intro a b k
    rw [mapGet_agg2, mapGet_agg2]
    by_cases h : keyMem a k ∨ keyMem b k
    · rw [if_pos h, if_pos (Or.symm h), Nat.add_comm]
    · rw [if_neg h, if_neg (fun hh => h (Or.symm hh))]
  · intro a b c k
    rw [mapGet_agg2, mapGet_agg2]
    simp only [keyMem_agg2, keyTotal_agg2]
    by_cases h : (keyMem a k ∨ keyMem b k) ∨ keyMem c k
    · rw [if_pos h, if_pos (by tauto), Nat.add_assoc]
    · rw [if_neg h, if_neg (by tauto)]

/-- The skipping step ignores events with an absent timestamp. -/
theorem aggStep_none (m : List ActivityData) : aggStep m none = m := rfl

/-- The skipping step ignores events with an empty timestamp. -/
theorem aggStep_empty (m : List ActivityData) : aggStep m (some "") = m := rfl

/-- C8: aggregation by date never throws on events without a usable
timestamp — an event whose timestamp is absent or empty (the falsy values
`!dateStr` skips) is silently dropped, contributes nothing to any date's
count, and aggregation of the remaining events proceeds unchanged.  (The
embedding is total, so the absence of an exception is inherent; the content
is that dropping such an event anywhere in the stream leaves the aggregated
output identical.) -/
theorem claim_C8_amended_skip_unusable :
    (∀ l1 l2 : List RawEvent,
      aggregateByDate (l1 ++ none :: l2) = aggregateByDate (l1 ++ l2)) ∧
    (∀ l1 l2 : List RawEvent,
      aggregateByDate (l1 ++ some "" :: l2) = aggregateByDate (l1 ++ l2)) := by
  constructor
  · intro l1 l2
    simp [aggregateByDate, List.foldl_append, aggStep_none]
  · intro l1 l2
    simp [aggregateByDate, List.foldl_append, aggStep_empty]

/-- C8 counterexample: an event with the malformed (but non-empty) timestamp
`"garbage"` is not skipped — it produces the bogus entry `("garbage", 1)` in
the output, although `"garbage"` has no `YYYY-MM-DD` shape; the claim says
such an event contributes nothing. -/
theorem claim_C8_counterexample :
    aggregateByDate [some "garbage"] = [("garbage", 1)] ∧
    strictYMD "garbage" = false ∧
    aggregateByDate [some "garbage"] ≠ [] := by
  refine ⟨by decide, by decide, by decide⟩

/-! ### Output invariants of the aggregation and merge operations -/

theorem sortedStrict_sortByDate (l : List ActivityData) (hnd : nodupDates l) :
    (sortByDate l).Pairwise (fun a b => strLt a.1 b.1) := by
  have hs : (sortByDate l).Pairwise dleRel := List.sorted_insertionSort dleRel l
  have hnd' : nodupDates (sortByDate l) := nodupDates_sortByDate l hnd
  have hne : (sortByDate l).Pairwise (fun a b : ActivityData => a.1 ≠ b.1) :=
    (List.pairwise_map.mp hnd')
  exact (hs.and hne).imp (fun h => ⟨h.1, h.2⟩)

theorem aggFold_pos (evs : List RawEvent) :
    ∀ m : List ActivityData, (∀ x ∈ m, 1 ≤ x.2) →
      ∀ x ∈ evs.foldl aggStep m, 1 ≤ x.2 := by
  induction evs with
  | nil => intro m hm; exact hm
  | cons ev evs ih =>
    intro m hm
    rw [List.foldl_cons]
    refine ih _ ?_
    match ev with
    | none => exact hm
    | some s =>
      by_cases hs : s = ""
      · simpa [aggStep, hs] using hm
      · intro x hx
        rcases mem_mapSet _ _ _ x (by simpa [aggStep, hs] using hx) with h1 | h1
        · exact hm x h1
        · subst h1; simp

theorem aggFold_nodup (evs : List RawEvent) :
    ∀ m : List ActivityData, nodupDates m → nodupDates (evs.foldl aggStep m) := by
  induction evs with
  | nil => intro m hm; exact hm
  | cons ev evs ih =>
    intro m hm
    rw [List.foldl_cons]
    refine ih _ ?_
    match ev with
    | none => exact hm
    | some s =>
      by_cases hs : s = ""
      · simpa [aggStep, hs] using hm
      · simpa [aggStep, hs] using nodupDates_mapSet m (splitT s) _ hm

/-- C10 (amended): every array produced by `aggregateByDate` (and the
identical `fetchPublicCommits` aggregation), `mergeActivityData` and
`aggregateCombined` is strictly ascending by date string with no duplicate
dates; every `aggregateByDate` entry has count at least 1, and the merge
operations have all counts at least 1 whenever every input entry does (a
zero-count input entry is passed through, so the positivity of merge outputs
is conditional on the inputs). -/
theorem claim_C10_amended_invariants :
    (∀ evs : List RawEvent,
      (aggregateByDate evs).Pairwise (fun a b => strLt a.1 b.1) ∧
      ∀ e ∈ aggregateByDate evs, 1 ≤ e.2) ∧
    (∀ data : List ActivityData,
      (mergeActivityData data).Pairwise (fun a b => strLt a.1 b.1)) ∧
    (∀ data : List ActivityData, (∀ e ∈ data, 1 ≤ e.2) →
      ∀ e ∈ mergeActivityData data, 1 ≤ e.2) ∧
    (∀ ls : List (List ActivityData),
      (aggregateCombined ls).Pairwise (fun a b => strLt a.1 b.1)) ∧
    (∀ ls : List (List ActivityData), (∀ e ∈ ls.flatten, 1 ≤ e.2) →
      ∀ e ∈ aggregateCombined ls, 1 ≤ e.2) := by
  refine ⟨?_, ?_, ?_, ?_, ?_⟩
  · intro evs
    constructor
    · exact sortedStrict_sortByDate _ (aggFold_nodup evs [] (by simp [nodupDates]))
    · intro e he
      exact aggFold_pos evs [] (by simp) e ((sortByDate_perm _).mem_iff.mp he)
  · intro data
    exact sortedStrict_sortByDate _ (nodupDates_mergeFold data)
  · intro data h e he
    exact foldInc_pos data [] (by simp) h e ((sortByDate_perm _).mem_iff.mp he)
  · intro ls
    rw [aggregateCombined, foldl_foldInc]
    exact sortedStrict_sortByDate _ (nodupDates_mergeFold ls.flatten)
  · intro ls h e he
    rw [aggregateCombined, foldl_foldInc] at he
    exact foldInc_pos ls.flatten [] (by simp) h e ((sortByDate_perm _).mem_iff.mp he)

/-- C10 witness: the conditional positivity applied at a concrete merge
whose two duplicate-date entries sum to `("2024-01-01", 5)`. -/
theorem claim_C10_witness :
    1 ≤ (("2024-01-01", 5) : ActivityData).2 :=
  claim_C10_amended_invariants.2.2.1 [("2024-01-01", 2), ("2024-01-01", 3)]
    (by decide) ("2024-01-01", 5) (by decide)

/-- C10 counterexample: a zero-count input entry survives
`mergeActivityData` as an explicit zero-count output entry, refuting the
claim that every produced entry has count at least 1. -/
theorem claim_C10_counterexample :
    mergeActivityData [("2024-01-01", 0)] = [("2024-01-01", 0)] ∧
    ("2024-01-01", 0) ∈ mergeActivityData [("2024-01-01", 0)] ∧
    ¬ (1 ≤ (("2024-01-01", 0) : ActivityData).2) :=
  ⟨by decide, by decide, by decide⟩

/-! ### Streak computations versus run specifications -/

theorem hasPosRun_zero (l : List ℕ) : hasPosRun l 0 :=
  ⟨0, by omega, by constructor <;> omega⟩

theorem trailingSpec_zero (l : List ℕ) : trailingSpec l 0 :=
  ⟨Nat.zero_le _, by omega⟩

theorem hasPosRun_longest (l : List ℕ) : hasPosRun l (longestPosRun l) :=
  Nat.findGreatest_spec (Nat.zero_le _) (hasPosRun_zero l)

theorem trailingSpec_trailingPosLen (l : List ℕ) : trailingSpec l (trailingPosLen l) :=
  Nat.findGreatest_spec (Nat.zero_le _) (trailingSpec_zero l)

theorem hasPosRun_mono {l : List ℕ} {L L' : ℕ} (h : hasPosRun l L) (hle : L' ≤ L) :
    hasPosRun l L' := by
  obtain ⟨i, hi, hlen, hall⟩ := h
  exact ⟨i, hi, by omega, fun j hj => hall j (by omega)⟩

theorem hasPosRun_le_length {l : List ℕ} {L : ℕ} (h : hasPosRun l L) : L ≤ l.length := by
  obtain ⟨i, _, hlen, _⟩ := h
  omega

theorem hasPosRun_iff_le (l : List ℕ) (L : ℕ) :
    hasPosRun l L ↔ L ≤ longestPosRun l := by
  constructor
  · intro h
    exact Nat.le_findGreatest (hasPosRun_le_length h) h
  · intro h
    exact hasPosRun_mono (hasPosRun_longest l) h

theorem length_takeWhile_le' {α : Type} (p : α → Bool) (l : List α) :
    (l.takeWhile p).length ≤ l.length :=
  (List.takeWhile_prefix p).length_le

theorem pos_of_lt_takeWhile (l : List ℕ) :
    ∀ j, j < (l.takeWhile (fun c => decide (0 < c))).length → 0 < l.getD j 0 := by
  induction l with
  | nil => intro j hj; simp [List.takeWhile] at hj
  | cons a l ih =>
    intro j hj
    by_cases ha : 0 < a
    · rw [List.takeWhile_cons, if_pos (by simpa using ha)] at hj
      cases j with
      | zero => simpa [List.getD]
      | succ j =>
        simp only [List.length_cons, Nat.succ_lt_succ_iff] at hj
        simpa [List.getD] using ih j hj
    · rw [List.takeWhile_cons, if_neg (by simpa using ha)] at hj
      simp at hj

theorem le_takeWhile_of_pos (l : List ℕ) :
    ∀ L, L ≤ l.length → (∀ j < L, 0 < l.getD j 0) →
      L ≤ (l.takeWhile (fun c => decide (0 < c))).length := by
  induction l with
  | nil => intro L hL _; simpa using hL
  | cons a l ih =>
    intro L hL hall
    cases L with
    | zero => exact Nat.zero_le _
    | succ L =>
      have ha : 0 < a := by simpa [List.getD] using hall 0 (Nat.succ_pos L)
      rw [List.takeWhile_cons, if_pos (by simpa using ha)]
      simp only [List.length_cons, Nat.succ_le_succ_iff]
      refine ih L (by simpa using hL) ?_
      intro j hj
      simpa [List.getD] using hall (j + 1) (by omega)

theorem getD_reverse (l : List ℕ) (j : ℕ) (h : j < l.length) :
    l.reverse.getD j 0 = l.getD (l.length - 1 - j) 0 := by
  have h1 : j < l.reverse.length := by simpa using h
  have h2 : l.length - 1 - j < l.length := by omega
  rw [List.getD_eq_getElem l.reverse 0 h1, List.getD_eq_getElem l 0 h2,
    List.getElem_reverse]

/-- The maximal all-positive suffix computed by the backwards loop equals the
greatest trailing-run length of the specification. -/
theorem trailingPosLen_eq (l : List ℕ) : trailingPosLen l = trailingPos l := by
  apply le_antisymm
  · obtain ⟨hlen, hall⟩ := trailingSpec_trailingPosLen l
    set L := trailingPosLen l with hL
    refine le_takeWhile_of_pos l.reverse L (by simpa using hlen) ?_
    intro j hj
    rw [getD_reverse l j (by omega)]
    have := hall (L - 1 - j) (by omega)
    have heq : l.length - L + (L - 1 - j) = l.length - 1 - j := by omega
    rwa [heq] at this
  · set L := trailingPos l with hL
    have hlen : L ≤ l.length := by
      have := length_takeWhile_le' (fun c => decide (0 < c)) l.reverse
      simpa [trailingPos, ← hL] using this
    refine Nat.le_findGreatest hlen ⟨hlen, ?_⟩
    intro j hj
    have hj' : L - 1 - j < L := by omega
    have := pos_of_lt_takeWhile l.reverse (L - 1 - j) hj'
    rw [getD_reverse l (L - 1 - j) (by omega)] at this
    have heq : l.length - 1 - (L - 1 - j) = l.length - L + j := by omega
    rwa [heq] at this

theorem streakFold_snoc (l : List ℕ) (c : ℕ) :
    streakFold (l ++ [c]) = streakStep (streakFold l) c := by
  simp [streakFold, List.foldl_append]

theorem trailingPos_snoc_pos (l : List ℕ) {c : ℕ} (hc : 0 < c) :
    trailingPos (l ++ [c]) = trailingPos l + 1 := by
  simp [trailingPos, List.reverse_append, List.takeWhile_cons, hc, Nat.add_comm]

theorem trailingPos_snoc_zero (l : List ℕ) : trailingPos (l ++ [0]) = 0 := by
  simp [trailingPos, List.reverse_append, List.takeWhile_cons]

theorem hasPosRun_snoc_of {l : List ℕ} {L : ℕ} (c : ℕ) (h : hasPosRun l L) :
    hasPosRun (l ++ [c]) L := by
  obtain ⟨i, hi, hlen, hall⟩ := h
  refine ⟨i, by simp; omega, by simp; omega, ?_⟩
  intro j hj
  rw [List.getD_append _ _ _ _ (by omega)]
  exact hall j hj

theorem longestPosRun_snoc_zero (l : List ℕ) :
    longestPosRun (l ++ [0]) = longestPosRun l := by
  apply le_antisymm
  · rw [← hasPosRun_iff_le]
    obtain ⟨i, hi, hlen, hall⟩ := hasPosRun_longest (l ++ [0])
    set L := longestPosRun (l ++ [0]) with hL
    simp only [List.length_append, List.length_cons, List.length_nil] at hi hlen
    rcases Nat.eq_zero_or_pos L with hL0 | hLpos
    · rw [hL0]; exact hasPosRun_zero l
    rcases Nat.lt_or_ge (i + L) (l.length + 1) with hcase | hcase
    · exact ⟨i, by omega, by omega, fun j hj => by
        have := hall j hj
        rwa [List.getD_append _ _ _ _ (by omega)] at this⟩
    · exfalso
      have := hall (L - 1) (by omega)
      have hidx : i + (L - 1) = l.length := by omega
      rw [hidx, List.getD_append_right _ _ _ _ (by omega)] at this
      simp at this
  · rw [← hasPosRun_iff_le]
    exact hasPosRun_snoc_of 0 (hasPosRun_longest l)

theorem longestPosRun_snoc_pos (l : List ℕ) {c : ℕ} (hc : 0 < c) :
    longestPosRun (l ++ [c]) = max (longestPosRun l) (trailingPos l + 1) := by
  have htp : trailingSpec l (trailingPos l) := by
    rw [← trailingPosLen_eq]
    exact trailingSpec_trailingPosLen l
  apply le_antisymm
  · obtain ⟨i, hi, hlen, hall⟩ := hasPosRun_longest (l ++ [c])
    set L := longestPosRun (l ++ [c]) with hL
    simp only [List.length_append, List.length_cons, List.length_nil] at hi hlen
    rcases Nat.lt_or_ge (i + L) (l.length + 1) with hcase | hcase
    · refine le_max_of_le_left ?_
      rw [← hasPosRun_iff_le]
      exact ⟨i, by omega, by omega, fun j hj => by
        have := hall j hj
        rwa [List.getD_append _ _ _ _ (by omega)] at this⟩
    · refine le_max_of_le_right ?_
      have hiL : i + L = l.length + 1 := by omega
      have hsuffix : trailingSpec l (L - 1) := by
        refine ⟨by omega, ?_⟩
        intro j hj
        have := hall j (by omega)
        have hidx : i + j = l.length - (L - 1) + j := by omega
        rw [hidx] at this
        rwa [List.getD_append _ _ _ _ (by omega)] at this
      have : L - 1 ≤ trailingPosLen l := Nat.le_findGreatest (by omega) hsuffix
      rw [trailingPosLen_eq] at this
      omega
  · rw [← hasPosRun_iff_le]
    rcases Nat.le_total (longestPosRun l) (trailingPos l + 1) with hm | hm
    · rw [max_eq_right hm]
      refine ⟨l.length - trailingPos l, by simp; omega, ?_, ?_⟩
      · simp only [List.length_append, List.length_cons, List.length_nil]
        have := htp.1
        omega
      · intro j hj
        have hT := htp.1
        rcases Nat.lt_or_ge j (trailingPos l) with hjc | hjc
        · rw [List.getD_append _ _ _ _ (by omega)]
          exact htp.2 j hjc
        · have hj1 : j = trailingPos l := by omega
          have hidx : l.length - trailingPos l + j = l.length := by omega
          rw [hidx, List.getD_append_right _ _ _ _ (by omega)]
          simpa using hc
    · rw [max_eq_left hm]
      exact hasPosRun_snoc_of c (hasPosRun_longest l)

/-- The fold state of the streak loop after any prefix: the longest and the
trailing all-positive run of the counts seen so far. -/
theorem streakFold_spec (l : List ℕ) :
    streakFold l = (longestPosRun l, trailingPos l) := by
  induction l using List.reverseRecOn with
  | nil => rfl
  | append_singleton l c ih =>
    rw [streakFold_snoc, ih]
    by_cases hc : 0 < c
    · rw [streakStep, if_pos hc, longestPosRun_snoc_pos l hc, trailingPos_snoc_pos l hc]
    · have hc0 : c = 0 := by omega
      subst hc0
      rw [streakStep, if_neg (by omega), longestPosRun_snoc_zero, trailingPos_snoc_zero]

/-- C1 (amended): `calculateLongestStreak` equals the length of the longest
run of *consecutive entries of the series array* each having count > 0 — the
walk never consults the dates, so a calendar gap between adjacent entries
does not break the streak (an absent date produces no entry at all). -/
theorem claim_C1_amended_longest_streak (data : List ActivityData) :
    calculateLongestStreak data = longestPosRun (data.map (fun e => e.2)) := by
  have h : calculateLongestStreak data = (streakFold (data.map (fun e => e.2))).1 := by
    rw [streakFold, List.foldl_map]
    rfl
  rw [h, streakFold_spec]

/-- C1 counterexample: on the series `{2024-01-01: 1, 2024-01-05: 1}` the
code computes `longestStreak = 2`, while the claim's longest run of
consecutive calendar dates with positive count over the range
`2024-01-01..2024-01-05` is `1` (the two active days are 4 calendar days
apart, as the day numbers of the parsed dates show). -/
theorem claim_C1_counterexample :
    calculateLongestStreak [("2024-01-01", 1), ("2024-01-05", 1)] = 2 ∧
    parseDate "2024-01-01" = some (2024, 1, 1) ∧
    parseDate "2024-01-05" = some (2024, 1, 5) ∧
    civilDays 2024 1 5 = civilDays 2024 1 1 + 4 ∧
    specLongestStreakDays
      (fun n => if n = civilDays 2024 1 1 ∨ n = civilDays 2024 1 5 then 1 else 0)
      (civilDays 2024 1 1) (civilDays 2024 1 5) = 1 ∧
    (2 : ℕ) ≠ 1 :=
  ⟨by decide, by decide, by decide, by decide, by decide, by decide⟩

/-- C2 (amended): `calculateCurrentStreak` equals the length of the maximal
all-positive suffix of the series array; the walk never consults the dates or
the requested range, so it does not end at `range.end` and is nonzero
whenever the array's last entry has a positive count, regardless of whether
that entry's date is `range.end`. -/
theorem claim_C2_amended_current_streak (data : List ActivityData) :
    calculateCurrentStreak data = trailingPosLen (data.map (fun e => e.2)) := by
  rw [trailingPosLen_eq, trailingPos, calculateCurrentStreak, ← List.map_reverse,
    List.takeWhile_map, List.length_map]
  rfl

/-- C2 counterexample: on the series `{2024-01-01: 1, 2024-01-02: 1}` over
the range `2024-01-01..2024-01-10` the claim demands `currentStreak = 0`
(the range end 2024-01-10 is absent, hence count 0), but the code computes
`2` from the trailing entries of the array. -/
theorem claim_C2_counterexample :
    calculateCurrentStreak [("2024-01-01", 1), ("2024-01-02", 1)] = 2 ∧
    parseDate "2024-01-10" = some (2024, 1, 10) ∧
    civilDays 2024 1 10 = civilDays 2024 1 1 + 9 ∧
    civilDays 2024 1 2 = civilDays 2024 1 1 + 1 ∧
    specCurrentStreakDays
      (fun n => if n = civilDays 2024 1 1 ∨ n = civilDays 2024 1 2 then 1 else 0)
      (civilDays 2024 1 1) (civilDays 2024 1 10) = 0 ∧
    (2 : ℕ) ≠ 0 :=
  ⟨by decide, by decide, by decide, by decide, by decide, by decide⟩

/-- C3 (amended): for a non-empty series, `calculateAverage` is the total
count divided by the *number of series entries* (not the number of calendar
dates of the range), rounded to one decimal: the result is an integer
multiple of 1/10 within 1/20 of the exact entry mean; for the empty series
the function returns 0 instead of dividing by zero. -/
theorem jsRound_div10_close (q : ℚ) :
    |(jsRound (q * 10) : ℚ) / 10 - q| ≤ 1 / 20 := by
  rw [jsRound, abs_le]
  have h1 : (⌊q * 10 + 1 / 2⌋ : ℚ) ≤ q * 10 + 1 / 2 := Int.floor_le _
  have h2 : q * 10 + 1 / 2 - 1 < (⌊q * 10 + 1 / 2⌋ : ℚ) := Int.sub_one_lt_floor _
  constructor <;> linarith

theorem claim_C3_amended_average (data : List ActivityData) (h : data ≠ []) :
    |calculateAverage data - (totalCommits data : ℚ) / (data.length : ℚ)| ≤ 1 / 20 ∧
    (∃ z : ℤ, calculateAverage data * 10 = (z : ℚ)) ∧
    calculateAverage [] = 0 := by
  have hrw : calculateAverage data =
      (jsRound ((totalCommits data : ℚ) / (data.length : ℚ) * 10) : ℚ) / 10 := by
    rw [calculateAverage, if_neg h]
  refine ⟨?_, ⟨jsRound ((totalCommits data : ℚ) / (data.length : ℚ) * 10), by
    rw [hrw]; ring⟩, by rw [calculateAverage]; simp⟩
  rw [hrw]
  exact jsRound_div10_close _

/-- C3 counterexample: the series `{2024-01-01: 4}` over the 4-day range
`2024-01-01..2024-01-04` — the claim demands `4 / 4 = 1.0`, but the code
divides by the single series entry and returns `4`. -/
theorem claim_C3_counterexample :
    calculateAverage [("2024-01-01", 4)] = 4 ∧
    parseDate "2024-01-04" = some (2024, 1, 4) ∧
    civilDays 2024 1 4 = civilDays 2024 1 1 + 3 ∧
    specAverageDays (fun n => if n = civilDays 2024 1 1 then 4 else 0)
      (civilDays 2024 1 1) (civilDays 2024 1 4) = 1 ∧
    (4 : ℚ) ≠ 1 := by
  refine ⟨?_, by decide, by decide, ?_, by norm_num⟩
  · norm_num [calculateAverage, jsRound, totalCommits]
  · norm_num [specAverageDays, jsRound, rangeCounts, civilDays, List.range_succ]

/-- C3 witness: the amended statement applied to the concrete two-entry
series with total 3, whose entry mean is 3/2. -/
theorem claim_C3_witness :
    |calculateAverage [("2024-01-01", 1), ("2024-01-02", 2)] -
      (totalCommits [("2024-01-01", 1), ("2024-01-02", 2)] : ℚ) /
        (([("2024-01-01", 1), ("2024-01-02", 2)] : List ActivityData).length : ℚ)| ≤ 1 / 20 ∧
    (∃ z : ℤ,
      calculateAverage [("2024-01-01", 1), ("2024-01-02", 2)] * 10 = (z : ℚ)) ∧
    calculateAverage [] = 0 :=
  claim_C3_amended_average [("2024-01-01", 1), ("2024-01-02", 2)] (by decide)

/-! ### Intensity bucket characterization -/

theorem ratio_le_iff (c M a b : ℕ) (hM : 0 < M) (hb : 0 < b) :
    ((c : ℚ) / (M : ℚ) ≤ (a : ℚ) / (b : ℚ)) ↔ c * b ≤ a * M := by
  rw [div_le_div_iff₀ (by exact_mod_cast hM) (by exact_mod_cast hb),
    ← Nat.cast_mul, ← Nat.cast_mul, Nat.cast_le]

theorem le_foldl_max (l : List ℕ) : ∀ a : ℕ, a ≤ l.foldl max a := by
  induction l with
  | nil => intro a; simp
  | cons x l ih => intro a; exact le_trans (le_max_left a x) (ih (max a x))

theorem one_le_seriesMaxCount (data : List ActivityData) :
    1 ≤ seriesMaxCount data :=
  le_foldl_max _ 1

/-- C5: the bucket function returns level 0 exactly for count 0; otherwise
the ratio thresholds 0.25, 0.5, 0.75 against `max(maxCountInSeries, 1)`
select levels 1..4 — characterized here with exact integer inequalities —
and in particular `bucket 0 m = 0` always and `bucket m m = 4` whenever the
series maximum `m` is at least 1 (for `m = 0` the claim's own
`count == 0` clause forces level 0 instead).  The last part ties the claim's
two-argument function to the source-level `getColor` computation, whose
series maximum `Math.max(...counts, 1)` is always at least 1. -/
theorem claim_C5_bucket_levels :
    (∀ c m : ℕ, bucket c m =
      if c = 0 then 0
      else if c * 4 ≤ max m 1 then 1
      else if c * 2 ≤ max m 1 then 2
      else if c * 4 ≤ 3 * max m 1 then 3
      else 4) ∧
    (∀ c m : ℕ, bucket c m = 0 ↔ c = 0) ∧
    (∀ m : ℕ, 1 ≤ m → bucket m m = 4) ∧
    (∀ (data : List ActivityData) (c : ℕ),
      getColorLevel (seriesMaxCount data) c = bucket c (seriesMaxCount data)) := by
  have hchar : ∀ c m : ℕ, bucket c m =
      if c = 0 then 0
      else if c * 4 ≤ max m 1 then 1
      else if c * 2 ≤ max m 1 then 2
      else if c * 4 ≤ 3 * max m 1 then 3
      else 4 := by
    intro c m
    by_cases hc : c = 0
    · simp [bucket, getColorLevel, hc]
    · have hM : 0 < max m 1 := by omega
      have h14 : ((c : ℚ) / ((max m 1 : ℕ) : ℚ) ≤ 1 / 4) ↔ c * 4 ≤ max m 1 := by
        have := ratio_le_iff c (max m 1) 1 4 hM (by omega)
        simpa using this
      have h12 : ((c : ℚ) / ((max m 1 : ℕ) : ℚ) ≤ 1 / 2) ↔ c * 2 ≤ max m 1 := by
        have := ratio_le_iff c (max m 1) 1 2 hM (by omega)
        simpa using this
      have h34 : ((c : ℚ) / ((max m 1 : ℕ) : ℚ) ≤ 3 / 4) ↔ c * 4 ≤ 3 * max m 1 := by
        have := ratio_le_iff c (max m 1) 3 4 hM (by omega)
        simpa using this
      simp only [bucket, getColorLevel, if_neg hc]
      rw [if_congr h14 rfl (if_congr h12 rfl (if_congr h34 rfl rfl))]
  refine ⟨hchar, ?_, ?_, ?_⟩
  · intro c m
    rw [hchar]
    by_cases hc : c = 0
    · simp [hc]
    · simp only [if_neg hc]
      split_ifs <;> simp [hc]
  · intro m hm
    rw [hchar, if_neg (by omega)]
    have hmax : max m 1 = m := by omega
    rw [hmax, if_neg (by omega), if_neg (by omega), if_neg (by omega)]
  · intro data c
    rw [bucket, Nat.max_eq_left (one_le_seriesMaxCount data)]

/-- C5 witness: the series maximum 7 of a series with maximum count 7 lands
in the top bucket. -/
theorem claim_C5_witness : bucket 7 7 = 4 :=
  claim_C5_bucket_levels.2.2.1 7 (by norm_num)

/-! ### Date-parsing characterization -/

theorem daysInMonth_pos (y m : ℕ) : 1 ≤ daysInMonth y m := by
  unfold daysInMonth
  split_ifs <;> omega

theorem jsDateParse_of_strict (l : List Char) (h : strictYMDList l = true) :
    (jsDateParse l).isSome = true := by
  unfold strictYMDList at h
  split at h
  · simp [jsDateParse, h]
  · simp at h

theorem jsDateParse_real_day (l : List Char) (y m d : ℕ)
    (h : jsDateParse l = some (y, m, d)) :
    1 ≤ m ∧ m ≤ 12 ∧ 1 ≤ d ∧ d ≤ daysInMonth y m := by
  unfold jsDateParse at h
  split at h
  · split at h
    · simp only [Option.some.injEq, Prod.mk.injEq] at h
      obtain ⟨hy, hm, hd⟩ := h
      subst hy; subst hm; subst hd
      exact ⟨le_refl 1, by omega, le_refl 1, daysInMonth_pos _ 1⟩
    · simp at h
  · split at h
    · rename_i hc
      simp only [Bool.and_eq_true, decide_eq_true_eq] at hc
      simp only [Option.some.injEq, Prod.mk.injEq] at h
      obtain ⟨hy, hm, hd⟩ := h
      subst hy; subst hm; subst hd
      exact ⟨hc.1.2, hc.2, le_refl 1, daysInMonth_pos _ _⟩
    · simp at h
  · split at h
    · rename_i hc
      simp only [Bool.and_eq_true, decide_eq_true_eq] at hc
      simp only [Option.some.injEq, Prod.mk.injEq] at h
      obtain ⟨hy, hm, hd⟩ := h
      subst hy; subst hm; subst hd
      exact ⟨hc.1.1.1.2, hc.1.1.2, hc.1.2, hc.2⟩
    · simp at h
  · simp at h

theorem jsDateParse_length (l : List Char) (h : (jsDateParse l).isSome = true) :
    l.length = 4 ∨ l.length = 7 ∨ l.length = 10 := by
  unfold jsDateParse at h
  split at h
  · left; rfl
  · right; left; rfl
  · right; right; rfl
  · simp at h

/-- C9 (amended): `parseDate` appends `T00:00:00Z` and hands the string to
the JS `Date` parser, so it succeeds not only on strict `YYYY-MM-DD` but on
every ECMAScript date-only shape (`YYYY`, `YYYY-MM`, `YYYY-MM-DD`) denoting
a real calendar day (missing month/day default to January/the 1st); every
strict `YYYY-MM-DD` real date is accepted, every accepted string has one of
the three shapes and denotes a real day (so `2024-02-30` still fails), the
thrown error is a plain `Error`, and a parse failure propagates uncaught
through `isValidDateRange` on either argument. -/
theorem claim_C9_amended_parse :
    (∀ s : String, strictYMD s = true → (parseDate s).isSome = true) ∧
    (∀ (s : String) (y m d : ℕ), parseDate s = some (y, m, d) →
      1 ≤ m ∧ m ≤ 12 ∧ 1 ≤ d ∧ d ≤ daysInMonth y m) ∧
    (∀ s : String, (parseDate s).isSome = true →
      s.data.length = 4 ∨ s.data.length = 7 ∨ s.data.length = 10) ∧
    (∀ s e : String, parseDate s = none → isValidDateRange s e = none) ∧
    (∀ s e : String, parseDate e = none → isValidDateRange s e = none) := by
  refine ⟨?_, ?_, ?_, ?_, ?_⟩
  · intro s h
    exact jsDateParse_of_strict s.data h
  · intro s y m d h
    exact jsDateParse_real_day s.data y m d h
  · intro s h
    exact jsDateParse_length s.data h
  · intro s e h
    unfold isValidDateRange
    rw [h]
  · intro s e h
    unfold isValidDateRange
    cases hs : parseDate s
    · rfl
    · rw [h]

/-- C9 counterexample: `parseDate "2024-02"` succeeds (February defaults to
its first day), although `"2024-02"` is not of strict `YYYY-MM-DD` shape —
so parsing does not succeed *exactly* on strict `YYYY-MM-DD` strings; for
contrast, the non-existent day `2024-02-30` is indeed rejected while the
real leap day `2024-02-29` is accepted. -/
theorem claim_C9_counterexample :
    (parseDate "2024-02").isSome = true ∧
    strictYMD "2024-02" = false ∧
    parseDate "2024-02" = some (2024, 2, 1) ∧
    parseDate "2024-02-30" = none ∧
    parseDate "2024-02-29" = some (2024, 2, 29) ∧
    parseDate "2023-02-29" = none :=
  ⟨by decide, by decide, by decide, by decide, by decide, by decide⟩

/-- C9 witness: a parse failure on the left endpoint propagates through
`isValidDateRange`. -/
theorem claim_C9_witness : isValidDateRange "2024-02-30" "2024-03-01" = none :=
  claim_C9_amended_parse.2.2.2.1 "2024-02-30" "2024-03-01" (by decide)

/-! ### Month-label scan characterization -/

theorem monthScanAux_eq_greedy (offX weekW minSp : ℤ) (ms : List ℕ) :
    ∀ w : ℕ,
      (monthScanAux offX weekW minSp ms w none none =
        monthScanGreedy offX weekW minSp ms w none) ∧
      (∀ (lm : ℕ) (lx : ℤ),
        monthScanAux offX weekW minSp ms w (some lm) (some lx) =
          monthScanGreedy offX weekW minSp ms w (some (lm, lx))) := by
  induction ms with
  | nil => intro w; exact ⟨rfl, fun _ _ => rfl⟩
  | cons m rest ih =>
    intro w
    constructor
    · rw [monthScanAux, monthScanGreedy]
      simp only [reduceCtorEq, ne_eq, not_false_eq_true, if_true, List.cons.injEq, true_and]
      exact (ih (w + 1)).2 m (offX + w * weekW)
    · intro lm lx
      rw [monthScanAux, monthScanGreedy]
      by_cases hm : m = lm
      · subst hm
        rw [if_neg (by simp), if_neg (by simp)]
        exact (ih (w + 1)).2 m lx
      · rw [if_pos (by simp [hm])]
        by_cases hx : offX + w * weekW - lx ≥ minSp
        · rw [if_pos (by simpa using hx), if_pos (by simp [hm, hx])]
          exact congrArg _ ((ih (w + 1)).2 m (offX + w * weekW))
        · rw [if_neg (by simpa using hx), if_neg (by simp [hm, hx])]
          exact (ih (w + 1)).2 lm lx

theorem monthScanGreedy_head_ok (offX weekW minSp : ℤ) (ms : List ℕ) :
    ∀ (w : ℕ) (lm : ℕ) (lx : ℤ),
      ∀ p ∈ (monthScanGreedy offX weekW minSp ms w (some (lm, lx))).head?,
        p.2 ≠ lm ∧ offX + (p.1 : ℤ) * weekW - lx ≥ minSp := by
  induction ms with
  | nil => intro w lm lx p hp; simp [monthScanGreedy] at hp
  | cons m rest ih =>
    intro w lm lx p hp
    rw [monthScanGreedy] at hp
    by_cases hc : (m ≠ lm ∧ offX + (w : ℤ) * weekW - lx ≥ minSp)
    · rw [if_pos (by simp [hc.1, hc.2])] at hp
      simp only [List.head?_cons, Option.mem_def, Option.some.injEq] at hp
      subst hp
      exact ⟨hc.1, hc.2⟩
    · rw [if_neg (by
        intro hh
        simp only [Bool.and_eq_true, decide_eq_true_eq] at hh
        exact hc ⟨hh.1, hh.2⟩)] at hp
      exact ih (w + 1) lm lx p hp

theorem monthScanGreedy_chain (offX weekW minSp : ℤ) (ms : List ℕ) :
    ∀ (w : ℕ) (last : Option (ℕ × ℤ)),
      List.Chain'
        (fun p q : ℕ × ℕ =>
          q.2 ≠ p.2 ∧ offX + (q.1 : ℤ) * weekW - (offX + (p.1 : ℤ) * weekW) ≥ minSp)
        (monthScanGreedy offX weekW minSp ms w last) := by
  induction ms with
  | nil => intro w last; simp [monthScanGreedy]
  | cons m rest ih =>
    intro w last
    cases last with
    | none =>
      rw [monthScanGreedy, if_pos (by simp)]
      rw [List.chain'_cons']
      refine ⟨?_, ih (w + 1) _⟩
      intro q hq
      exact monthScanGreedy_head_ok offX weekW minSp rest (w + 1) m
        (offX + (w : ℤ) * weekW) q hq
    | some p =>
      obtain ⟨lm, lx⟩ := p
      rw [monthScanGreedy]
      split
      · rw [List.chain'_cons']
        refine ⟨?_, ih (w + 1) _⟩
        intro q hq
        exact monthScanGreedy_head_ok offX weekW minSp rest (w + 1) m
          (offX + (w : ℤ) * weekW) q hq
      · exact ih (w + 1) _

/-- C7 (amended): in the month-label scan, when the spacing check fails at a
month transition the column receives no label, but the last-seen month is
*not* recorded — the same month is re-examined at every following column and
may receive a label at a later, non-transition column once the distance from
the last emitted label suffices.  The scan is equivalent to the greedy scan
whose whole state is the last *emitted* label (its month and x position):
a label is emitted at a column exactly when its month differs from the last
emitted label's month and its distance from that label is at least
`minSpacing` — so the previously emitted label, and only it, is the
reference point, and consecutive emitted labels always differ in month and
respect the spacing. -/
theorem claim_C7_amended_label_scan :
    (∀ (offX weekW minSp : ℤ) (ms : List ℕ),
      monthScan offX weekW minSp ms = monthScanGreedy offX weekW minSp ms 0 none) ∧
    (∀ (offX weekW minSp : ℤ) (ms : List ℕ),
      List.Chain'
        (fun p q : ℕ × ℕ =>
          q.2 ≠ p.2 ∧ offX + (q.1 : ℤ) * weekW - (offX + (p.1 : ℤ) * weekW) ≥ minSp)
        (monthScan offX weekW minSp ms)) := by
  constructor
  · intro offX weekW minSp ms
    exact (monthScanAux_eq_greedy offX weekW minSp ms 0).1
  · intro offX weekW minSp ms
    rw [monthScan, (monthScanAux_eq_greedy offX weekW minSp ms 0).1]
    exact monthScanGreedy_chain offX weekW minSp ms 0 none

/-- C7 counterexample: with the default geometry (cell 10 + gap 3, minimum
spacing `max(3*13, 40) = 40`, day-label offset 32) and five consecutive week
columns whose first days fall in months Jan, Feb, Feb, Feb, Feb, the code
emits the February label at week column 4 — a column that is *not* a month
transition — after the transition at column 1 failed the spacing check,
whereas the claim's scan (month skipped for that transition, no label at
all) emits no February label. -/
theorem claim_C7_counterexample :
    monthScan 32 13 40 [0, 1, 1, 1, 1] = [(0, 0), (4, 1)] ∧
    monthScanClaim 32 13 40 [0, 1, 1, 1, 1] = [(0, 0)] ∧
    monthScan 32 13 40 [0, 1, 1, 1, 1] ≠ monthScanClaim 32 13 40 [0, 1, 1, 1, 1] :=
  ⟨by decide, by decide, by decide⟩

/-! ### Week-grid characterization -/

theorem alignAux_spec (ws : ℤ) (h0 : 0 ≤ ws) (h7 : ws < 7) :
    ∀ (n : ℕ) (d : ℤ), (weekday d - ws) % 7 < (n : ℤ) →
      alignAux n d ws = d - (weekday d - ws) % 7 := by
  intro n
  induction n with
  | zero =>
    intro d h
    exfalso
    unfold weekday at h
    omega
  | succ n ih =>
    intro d h
    rw [alignAux]
    by_cases hw : weekday d = ws
    · rw [if_pos hw]
      have h0' : (weekday d - ws) % 7 = 0 := by rw [hw]; simp
      omega
    · rw [if_neg hw]
      have hk : (weekday (d - 1) - ws) % 7 = (weekday d - ws) % 7 - 1 := by
        unfold weekday at *
        omega
      rw [ih (d - 1) (by omega)]
      omega

theorem alignToWeekStart_spec (d ws : ℤ) (h0 : 0 ≤ ws) (h7 : ws < 7) :
    alignToWeekStart d ws = d - (weekday d - ws) % 7 := by
  refine alignAux_spec ws h0 h7 7 d ?_
  unfold weekday
  omega

theorem alignToWeekStart_le (d ws : ℤ) (h0 : 0 ≤ ws) (h7 : ws < 7) :
    alignToWeekStart d ws ≤ d := by
  rw [alignToWeekStart_spec d ws h0 h7]
  unfold weekday
  omega

theorem weekday_alignToWeekStart (d ws : ℤ) (h0 : 0 ≤ ws) (h7 : ws < 7) :
    weekday (alignToWeekStart d ws) = ws := by
  rw [alignToWeekStart_spec d ws h0 h7]
  unfold weekday
  omega

theorem daySeq_succ (c : ℤ) (n : ℕ) : daySeq c (n + 1) = c :: daySeq (c + 1) n := by
  simp only [daySeq, List.range_succ_eq_map, List.map_cons, List.map_map,
    Function.comp_def, Nat.cast_zero, add_zero, List.cons.injEq, true_and]
  refine List.map_congr_left ?_
  intro i _
  push_cast
  ring

theorem daySeq_append (c : ℤ) (a b : ℕ) :
    daySeq c a ++ daySeq (c + (a : ℤ)) b = daySeq c (a + b) := by
  induction a generalizing c with
  | zero => simp [daySeq]
  | succ a ih =>
    have h1 : a + 1 + b = (a + b) + 1 := by omega
    rw [daySeq_succ, h1, daySeq_succ]
    have h2 : c + ((a + 1 : ℕ) : ℤ) = (c + 1) + (a : ℤ) := by push_cast; ring
    simp only [List.cons_append, List.cons.injEq, true_and]
    rw [h2, ← ih (c + 1)]

theorem daySeq_length (c : ℤ) (n : ℕ) : (daySeq c n).length = n := by
  simp [daySeq]

theorem buildWeeks_flatten (e : ℤ) :
    ∀ (k : ℕ) (c : ℤ), (e + 1 - c).toNat ≤ k →
      ∃ n : ℕ, (buildWeeks c e).flatten = daySeq c n ∧
        (c ≤ e → e < c + (n : ℤ) ∧ 7 ≤ n) ∧ (¬ c ≤ e → n = 0) := by
  intro k
  induction k with
  | zero =>
    intro c hc
    have hce : ¬ c ≤ e := by omega
    refine ⟨0, ?_, fun h => absurd h hce, fun _ => rfl⟩
    rw [buildWeeks, if_neg hce]
    rfl
  | succ k ih =>
    intro c hc
    by_cases hce : c ≤ e
    · obtain ⟨n, hfl, hb1, hb2⟩ := ih (c + 7) (by omega)
      refine ⟨7 + n, ?_, ?_, fun h => absurd hce h⟩
      · rw [buildWeeks, if_pos hce, List.flatten_cons, hfl]
        have : c + ((7 : ℕ) : ℤ) = c + 7 := by push_cast; ring
        rw [← this, daySeq_append]
      · intro _
        by_cases h2 : c + 7 ≤ e
        · obtain ⟨hlt, _⟩ := hb1 h2
          exact ⟨by push_cast; omega, by omega⟩
        · have := hb2 h2
          subst this
          exact ⟨by push_cast; omega, by omega⟩
    · refine ⟨0, ?_, fun h => absurd h hce, fun _ => rfl⟩
      rw [buildWeeks, if_neg hce]
      rfl

theorem buildWeeks_week_length (e : ℤ) :
    ∀ (k : ℕ) (c : ℤ), (e + 1 - c).toNat ≤ k →
      ∀ wk ∈ buildWeeks c e, wk.length = 7 := by
  intro k
  induction k with
  | zero =>
    intro c hc wk hwk
    rw [buildWeeks, if_neg (by omega)] at hwk
    simp at hwk
  | succ k ih =>
    intro c hc wk hwk
    by_cases hce : c ≤ e
    · rw [buildWeeks, if_pos hce] at hwk
      rcases List.mem_cons.mp hwk with h | h
      · rw [h, daySeq_length]
      · exact ih (c + 7) (by omega) wk h
    · rw [buildWeeks, if_neg hce] at hwk
      simp at hwk

theorem filter_daySeq_inside (s e : ℤ) :
    ∀ (n : ℕ) (c : ℤ), s ≤ c →
      (daySeq c n).filter (fun d => decide (s ≤ d) && decide (d ≤ e)) =
        daySeq c (min n ((e - c + 1).toNat)) := by
  intro n
  induction n with
  | zero => intro c _; simp [daySeq]
  | succ n ih =>
    intro c hsc
    rw [daySeq_succ, List.filter_cons]
    by_cases hce : c ≤ e
    · rw [if_pos (by simp [hsc, hce]), ih (c + 1) (by omega)]
      have h1 : min (n + 1) ((e - c + 1).toNat) = min n ((e - (c + 1) + 1).toNat) + 1 := by
        omega
      rw [h1, daySeq_succ]
    · rw [if_neg (by simp [hce]), ih (c + 1) (by omega)]
      have h1 : min n ((e - (c + 1) + 1).toNat) = 0 := by omega
      have h2 : min (n + 1) ((e - c + 1).toNat) = 0 := by omega
      rw [h1, h2]
      simp [daySeq]

theorem filter_daySeq_skip (s e : ℤ) :
    ∀ (n : ℕ) (c : ℤ), c ≤ s → s ≤ e → e < c + (n : ℤ) →
      (daySeq c n).filter (fun d => decide (s ≤ d) && decide (d ≤ e)) =
        daySeq s ((e - s + 1).toNat) := by
  intro n
  induction n with
  | zero =>
    intro c hcs hse hce
    exfalso
    push_cast at hce
    omega
  | succ n ih =>
    intro c hcs hse hce
    rcases eq_or_lt_of_le hcs with heq | hlt
    · subst heq
      rw [filter_daySeq_inside c e (n + 1) c (le_refl c)]
      have : min (n + 1) ((e - c + 1).toNat) = (e - c + 1).toNat := by
        push_cast at hce
        omega
      rw [this]
    · rw [daySeq_succ, List.filter_cons, if_neg (by simp; omega)]
      refine ih (c + 1) (by omega) hse (by push_cast at hce ⊢; omega)

theorem daySeq_getLast (c : ℤ) : ∀ n : ℕ, (daySeq c (n + 1)).getLast? = some (c + (n : ℤ)) := by
  intro n
  induction n generalizing c with
  | zero =>
    rw [daySeq_succ]
    simp [daySeq]
  | succ n ih =>
    rw [daySeq_succ, daySeq_succ, List.getLast?_cons_cons, ← daySeq_succ, ih (c + 1)]
    congr 1
    push_cast
    ring

/-- C4: for every valid range (`start ≤ end`) and week-start convention, the
grid builder produces week columns of exactly 7 day cells; the in-range cells
in grid order are exactly the consecutive days `start..end`, so the earliest
in-range cell's date is `range.start` and the latest is `range.end`; the
cursor the grid starts from is week-aligned (`weekday = weekStart`) at or
before `range.start`. -/
theorem claim_C4_grid (s e ws : ℤ) (hse : s ≤ e) (h0 : 0 ≤ ws) (h7 : ws < 7) :
    (∀ wk ∈ buildGrid s e ws, wk.length = 7) ∧
    inRangeCells (buildGrid s e ws) s e = daySeq s ((e - s + 1).toNat) ∧
    (inRangeCells (buildGrid s e ws) s e).head? = some s ∧
    (inRangeCells (buildGrid s e ws) s e).getLast? = some e ∧
    weekday (alignToWeekStart s ws) = ws ∧
    alignToWeekStart s ws ≤ s := by
  have halign : alignToWeekStart s ws ≤ s := alignToWeekStart_le s ws h0 h7
  have hcells : inRangeCells (buildGrid s e ws) s e = daySeq s ((e - s + 1).toNat) := by
    unfold inRangeCells buildGrid
    obtain ⟨n, hfl, hb1, _⟩ :=
      buildWeeks_flatten e (e + 1 - alignToWeekStart s ws).toNat (alignToWeekStart s ws)
        (le_refl _)
    obtain ⟨hlt, _⟩ := hb1 (by omega)
    rw [hfl]
    exact filter_daySeq_skip s e n (alignToWeekStart s ws) halign hse hlt
  have hpos : (e - s + 1).toNat = (e - s).toNat + 1 := by omega
  refine ⟨?_, hcells, ?_, ?_, weekday_alignToWeekStart s ws h0 h7, halign⟩
  · intro wk hwk
    exact buildWeeks_week_length e (e + 1 - alignToWeekStart s ws).toNat
      (alignToWeekStart s ws) (le_refl _) wk hwk
  · rw [hcells, hpos, daySeq_succ]
    rfl
  · rw [hcells, hpos, daySeq_getLast s ((e - s).toNat)]
    congr 1
    omega

/-- C4 witness: the grid over the two-week range `17..30` with Monday start;
the in-range cells are exactly the days `17..30` and the ends match. -/
theorem claim_C4_witness :
    inRangeCells (buildGrid 17 30 1) 17 30 = daySeq 17 ((30 - 17 + 1 : ℤ).toNat) ∧
    (inRangeCells (buildGrid 17 30 1) 17 30).head? = some 17 ∧
    (inRangeCells (buildGrid 17 30 1) 17 30).getLast? = some 30 := by
  have h := claim_C4_grid 17 30 1 (by norm_num) (by norm_num) (by norm_num)
  exact ⟨h.2.1, h.2.2.1, h.2.2.2.1⟩
